import Mathlib

/-!
Verification of the conjunction-types library: a runtime container holding at
most one value per distinct component type, with a parallel type-level algebra.

The development shallowly embeds the library core:
a Conjunction value is an insertion-ordered map from component type
identifiers to payloads (a Python dict), modelled as an association list
together with the dict update operation; type descriptors are modelled by
their type sets; the minting registry and the ndjson codec are modelled as
explicit state.
-/

/-! ### Python dict model

A Python dict is an insertion-ordered association list with no duplicate
keys.  `dictInsert` models the statement `d[k] = v`: an existing key keeps
its position and gets the new value, a new key is appended at the end.
-/

def keysOf {K V : Type} (d : List (K × V)) : List K :=
  d.map Prod.fst

def NodupKeys {K V : Type} (d : List (K × V)) : Prop :=
  (keysOf d).Nodup

instance {K V : Type} [DecidableEq K] (d : List (K × V)) :
    Decidable (NodupKeys d) := by
  unfold NodupKeys
  infer_instance

def dlookup {K V : Type} [DecidableEq K] (k : K) : List (K × V) → Option V
  | [] => none
  | p :: rest => if k = p.1 then some p.2 else dlookup k rest

def dictInsert {K V : Type} [DecidableEq K] (d : List (K × V)) (k : K) (v : V) :
    List (K × V) :=
  if k ∈ keysOf d then d.map (fun p => if p.1 = k then (k, v) else p)
  else d ++ [(k, v)]

/-- Folding `d[k] = v` over a list of pairs: models `{**a, **b}` and the
merge loops of the library, which copy entries key by key. -/
def dictInsertAll {K V : Type} [DecidableEq K] (a b : List (K × V)) :
    List (K × V) :=
  b.foldl (fun d p => dictInsert d p.1 p.2) a

def keyFinset {K V : Type} [DecidableEq K] (d : List (K × V)) : Finset K :=
  (keysOf d).toFinset

theorem mem_keysOf_cons {K V : Type} (p : K × V) (rest : List (K × V)) (k : K) :
    k ∈ keysOf (p :: rest) ↔ k = p.1 ∨ k ∈ keysOf rest := by
  simp [keysOf]

theorem dlookup_eq_none_iff {K V : Type} [DecidableEq K] (k : K)
    (d : List (K × V)) : dlookup k d = none ↔ k ∉ keysOf d := by
  induction d with
  | nil => simp [dlookup, keysOf]
  | cons p rest ih =>
    by_cases h : k = p.1 <;> simp [dlookup, keysOf, h, ih]

theorem dlookup_isSome_iff {K V : Type} [DecidableEq K] (k : K)
    (d : List (K × V)) : (dlookup k d).isSome ↔ k ∈ keysOf d := by
  rcases h : dlookup k d with _ | v
  · rw [dlookup_eq_none_iff] at h
    simp [h]
  · have hne : dlookup k d ≠ none := by simp [h]
    rw [Ne, dlookup_eq_none_iff] at hne
    simp [not_not.mp hne]

theorem mem_of_dlookup_eq_some {K V : Type} [DecidableEq K] {k : K}
    {v : V} {d : List (K × V)} (h : dlookup k d = some v) : (k, v) ∈ d := by
  induction d with
  | nil => simp [dlookup] at h
  | cons p rest ih =>
    obtain ⟨a, b⟩ := p
    by_cases hk : k = a
    · simp [dlookup, hk] at h
      subst hk
      subst h
      exact List.mem_cons_self _ _
    · simp [dlookup, hk] at h
      exact List.mem_cons_of_mem _ (ih h)

theorem nodupKeys_cons {K V : Type} {p : K × V} {rest : List (K × V)}
    (h : NodupKeys (p :: rest)) : p.1 ∉ keysOf rest ∧ NodupKeys rest := by
  simpa [NodupKeys, keysOf] using h

theorem dlookup_eq_some_of_mem {K V : Type} [DecidableEq K] {k : K}
    {v : V} {d : List (K × V)} (hnd : NodupKeys d) (h : (k, v) ∈ d) :
    dlookup k d = some v := by
  induction d with
  | nil => simp at h
  | cons p rest ih =>
    obtain ⟨a, b⟩ := p
    obtain ⟨ha, hrest⟩ := nodupKeys_cons hnd
    rcases List.mem_cons.mp h with heq | hmr
    · rw [Prod.mk.injEq] at heq
      simp [dlookup, heq.1, heq.2]
    · have hk : k ≠ a := by
        intro he
        subst he
        exact ha (by simp [keysOf]; exact ⟨v, hmr⟩)
      simp [dlookup, hk]
      exact ih hrest hmr

theorem dlookup_append {K V : Type} [DecidableEq K] (k : K)
    (a b : List (K × V)) :
    dlookup k (a ++ b) =
      match dlookup k a with
      | some v => some v
      | none => dlookup k b := by
  induction a with
  | nil => simp [dlookup]
  | cons p rest ih =>
    by_cases h : k = p.1 <;> simp [dlookup, h, ih]

theorem dlookup_map_update_ne {K V : Type} [DecidableEq K] {k k2 : K}
    (v : V) (d : List (K × V)) (h : k2 ≠ k) :
    dlookup k2 (d.map (fun p => if p.1 = k then (k, v) else p)) =
      dlookup k2 d := by
  induction d with
  | nil => simp [dlookup]
  | cons p rest ih =>
    obtain ⟨a, b⟩ := p
    by_cases hp : a = k
    · subst hp
      simp [dlookup, h, ih]
    · simp [dlookup, hp, ih]

theorem dlookup_map_update_eq {K V : Type} [DecidableEq K] {k : K}
    (v : V) (d : List (K × V)) (h : k ∈ keysOf d) :
    dlookup k (d.map (fun p => if p.1 = k then (k, v) else p)) = some v := by
  induction d with
  | nil => simp [keysOf] at h
  | cons p rest ih =>
    obtain ⟨a, b⟩ := p
    by_cases hp : a = k
    · subst hp
      simp [dlookup]
    · have hmem : k ∈ keysOf rest := by
        rcases (mem_keysOf_cons _ _ _).mp h with h1 | h1
        · exact absurd h1.symm hp
        · exact h1
      have hk : k ≠ a := fun he => hp he.symm
      simp [dlookup, hp, hk, ih hmem]

theorem dlookup_dictInsert {K V : Type} [DecidableEq K] (k2 k : K) (v : V)
    (d : List (K × V)) :
    dlookup k2 (dictInsert d k v) =
      if k2 = k then some v else dlookup k2 d := by
  by_cases hmem : k ∈ keysOf d
  · by_cases h2 : k2 = k
    · subst h2
      simp [dictInsert, hmem, dlookup_map_update_eq v d hmem]
    · simp [dictInsert, hmem, dlookup_map_update_ne v d h2, h2]
  · by_cases h2 : k2 = k
    · subst h2
      have hnone : dlookup k2 d = none := (dlookup_eq_none_iff k2 d).mpr hmem
      simp [dictInsert, hmem, dlookup_append, hnone, dlookup]
    · simp [dictInsert, hmem, dlookup_append, h2, dlookup]
      rcases h : dlookup k2 d with _ | w <;> simp

theorem keysOf_map_update {K V : Type} [DecidableEq K] (k : K) (v : V)
    (d : List (K × V)) :
    keysOf (d.map (fun p => if p.1 = k then (k, v) else p)) = keysOf d := by
  induction d with
  | nil => rfl
  | cons p rest ih =>
    obtain ⟨a, b⟩ := p
    by_cases hp : a = k
    · subst hp
      simp [keysOf] at ih ⊢
      exact ih
    · simp [keysOf, hp] at ih ⊢
      exact ih

theorem keysOf_append {K V : Type} (a b : List (K × V)) :
    keysOf (a ++ b) = keysOf a ++ keysOf b := by
  simp [keysOf]

theorem keyFinset_dictInsert {K V : Type} [DecidableEq K] (k : K) (v : V)
    (d : List (K × V)) :
    keyFinset (dictInsert d k v) = insert k (keyFinset d) := by
  by_cases hmem : k ∈ keysOf d
  · have hk : k ∈ keyFinset d := by simpa [keyFinset] using hmem
    rw [dictInsert, if_pos hmem, keyFinset, keysOf_map_update,
      Finset.insert_eq_self.mpr hk]
    rfl
  · rw [dictInsert, if_neg hmem, keyFinset, keysOf_append,
      List.toFinset_append]
    rw [Finset.insert_eq, Finset.union_comm]
    rfl

theorem nodupKeys_dictInsert {K V : Type} [DecidableEq K] (k : K) (v : V)
    (d : List (K × V)) (h : NodupKeys d) : NodupKeys (dictInsert d k v) := by
  by_cases hmem : k ∈ keysOf d
  · unfold NodupKeys
    rw [dictInsert, if_pos hmem, keysOf_map_update]
    exact h
  · unfold NodupKeys
    rw [dictInsert, if_neg hmem, keysOf_append]
    simp [List.nodup_append]
    refine ⟨h, ?_, ?_⟩
    · simp [keysOf]
    · intro a ha hb
      simp [keysOf] at hb
      subst hb
      exact hmem ha

theorem dlookup_dictInsertAll {K V : Type} [DecidableEq K] (k : K)
    (a b : List (K × V)) (hb : NodupKeys b) :
    dlookup k (dictInsertAll a b) =
      match dlookup k b with
      | some v => some v
      | none => dlookup k a := by
  induction b generalizing a with
  | nil => simp [dictInsertAll, dlookup]
  | cons p rest ih =>
    obtain ⟨hk, hrest⟩ := nodupKeys_cons hb
    obtain ⟨x, y⟩ := p
    have step : dictInsertAll a ((x, y) :: rest) =
        dictInsertAll (dictInsert a x y) rest := rfl
    rw [step, ih _ hrest]
    by_cases he : k = x
    · subst he
      have : dlookup k rest = none := (dlookup_eq_none_iff k rest).mpr hk
      simp [dlookup, this, dlookup_dictInsert]
    · simp [dlookup, he, dlookup_dictInsert]

theorem keyFinset_dictInsertAll {K V : Type} [DecidableEq K]
    (a b : List (K × V)) :
    keyFinset (dictInsertAll a b) = keyFinset a ∪ keyFinset b := by
  induction b generalizing a with
  | nil => simp [dictInsertAll, keyFinset, keysOf]
  | cons p rest ih =>
    obtain ⟨x, y⟩ := p
    have step : dictInsertAll a ((x, y) :: rest) =
        dictInsertAll (dictInsert a x y) rest := rfl
    rw [step, ih, keyFinset_dictInsert]
    have : keyFinset ((x, y) :: rest) = insert x (keyFinset rest) := by
      simp [keyFinset, keysOf]
    rw [this]
    ext t
    simp [Finset.mem_insert, Finset.mem_union]
    try tauto

theorem nodupKeys_dictInsertAll {K V : Type} [DecidableEq K]
    (a b : List (K × V)) (ha : NodupKeys a) :
    NodupKeys (dictInsertAll a b) := by
  induction b generalizing a with
  | nil => exact ha
  | cons p rest ih =>
    obtain ⟨x, y⟩ := p
    exact ih _ (nodupKeys_dictInsert x y a ha)

theorem dictInsert_eq_append {K V : Type} [DecidableEq K]
    (d : List (K × V)) (k : K) (v : V) (h : k ∉ keysOf d) :
    dictInsert d k v = d ++ [(k, v)] := by
  rw [dictInsert, if_neg h]

/-! ### Component type identifiers and payload values

The modelled fragment covers the four scalar built-in types used throughout
the library and its tests, plus minted identities (named constructors, see
the minting registry below).  Payloads are the corresponding scalar Python
values; Python numeric cross-type equality (True == 1 == 1.0) is modelled
via an exact rational value.
-/

inductive PyType where
  | int
  | str
  | float
  | bool
  | minted (name : String)
deriving DecidableEq

inductive PyVal where
  | vInt (z : ℤ)
  | vFloat (q : ℚ)
  | vBool (b : Bool)
  | vStr (s : String)
deriving DecidableEq

/-- The runtime type of a value, `type(value)` (bool is its own runtime
type even though it subclasses int). -/
def typeOf : PyVal → PyType
  | .vInt _ => .int
  | .vFloat _ => .float
  | .vBool _ => .bool
  | .vStr _ => .str

/-- The exact numeric value of a numeric Python scalar, none for strings.
Encodes that Python compares bool, int and float by numeric value. -/
def ratOf : PyVal → Option ℚ
  | .vInt z => some (z : ℚ)
  | .vFloat q => some q
  | .vBool b => some (if b then 1 else 0)
  | .vStr _ => none

/-- Python `==` on the modelled scalar values: numeric values compare by
exact numeric value across bool, int and float; strings compare to strings;
a string never equals a number. -/
def pyEq (v w : PyVal) : Bool :=
  match ratOf v, ratOf w with
  | some p, some q => p = q
  | none, none =>
      match v, w with
      | .vStr s, .vStr t => s = t
      | _, _ => false
  | _, _ => false

theorem pyEq_refl (v : PyVal) : pyEq v v = true := by
  cases v <;> simp [pyEq, ratOf]

/-! ### Conjunction values

`Conjunction._data` is a dict from component type identifier to stored
value; a Conjunction value is modelled by that dict.
-/

abbrev ConjData : Type := List (PyType × PyVal)

/-- A positional argument of `Conjunction.__init__`: either a plain value
(type inferred from the value) or an existing Conjunction (merged entry by
entry at its position). -/
inductive Arg where
  | raw (v : PyVal)
  | sub (c : ConjData)

/-- The positional loop of `Conjunction.__init__`: for a plain value the
inferred runtime type is the key, for a nested Conjunction each of its
entries is written in order; on a key collision the later (right-most)
write wins, exactly as repeated dict assignment does. -/
def initPositional (args : List Arg) : ConjData :=
  args.foldl
    (fun d a =>
      match a with
      | .raw v => dictInsert d (typeOf v) v
      | .sub c => dictInsertAll d c)
    ([] : ConjData)

/-- The kwargs loop of `Conjunction.__init__`: every kwargs key is a string
and is resolved by evaluating it in the module scope; the modelled scope
resolves the built-in scalar type names.  An unresolvable name raises
TypeError (Invalid type specification).  No check relates the resolved
type to the value: the pair is stored as given. -/
def evalTypeName (s : String) : Except String PyType :=
  match s with
  | "int" => .ok .int
  | "str" => .ok .str
  | "float" => .ok .float
  | "bool" => .ok .bool
  | _ => .error ("Invalid type specification: " ++ s)

/-- `Conjunction.__init__`: positional loop, then kwargs loop. -/
def conjInit (args : List Arg) (kwargs : List (String × PyVal)) :
    Except String ConjData :=
  kwargs.foldlM
    (fun d kv => do
      let t ← evalTypeName kv.1
      pure (dictInsert d t kv.2))
    (initPositional args)

/-- `Conjunction.__and__` on two Conjunction operands:
`new_data = {**self._data, **other._data}` (right operand wins on
collision).  A non-Conjunction right operand is first wrapped as
`Conjunction(other)`, i.e. `conjAnd a (initPositional [Arg.raw v])`. -/
def conjAnd (a b : ConjData) : ConjData :=
  dictInsertAll a b

/-- `Conjunction.__eq__`: the two key sets must be equal as sets, and for
every key the two stored values must be Python-equal. -/
def conjEq (a b : ConjData) : Bool :=
  if keyFinset a = keyFinset b then
    (keysOf a).all
      (fun t =>
        match dlookup t a, dlookup t b with
        | some va, some vb => pyEq va vb
        | _, _ => false)
  else false

theorem conjEq_intro {a b : ConjData}
    (hk : keyFinset a = keyFinset b)
    (hv : ∀ t va vb, dlookup t a = some va → dlookup t b = some vb →
      pyEq va vb = true) : conjEq a b = true := by
  rw [conjEq, if_pos hk]
  rw [List.all_eq_true]
  intro t ht
  have hta : (dlookup t a).isSome := by
    rw [dlookup_isSome_iff]
    exact ht
  have htb : (dlookup t b).isSome := by
    rw [dlookup_isSome_iff]
    have : t ∈ keyFinset b := by
      rw [← hk]
      simpa [keyFinset] using ht
    simpa [keyFinset] using this
  rcases ha : dlookup t a with _ | va
  · rw [ha] at hta
    simp at hta
  · rcases hb : dlookup t b with _ | vb
    · rw [hb] at htb
      simp at htb
    · simp [hv t va vb ha hb]

theorem conjEq_of_dlookup_eq {a b : ConjData}
    (hk : keyFinset a = keyFinset b)
    (hv : ∀ t, dlookup t a = dlookup t b) : conjEq a b = true := by
  apply conjEq_intro hk
  intro t va vb hva hvb
  rw [hv t, hvb] at hva
  obtain rfl := Option.some.inj hva
  exact pyEq_refl _

theorem dlookup_nil {K V : Type} [DecidableEq K] (k : K) :
    dlookup k ([] : List (K × V)) = none := rfl

theorem nodupKeys_nil {K V : Type} : NodupKeys ([] : List (K × V)) := by
  simp [NodupKeys, keysOf]

def exA : ConjData :=
  initPositional [Arg.raw (PyVal.vInt 5), Arg.raw (PyVal.vFloat (1 / 2))]

def exB : ConjData :=
  initPositional [Arg.raw (PyVal.vBool true), Arg.raw (PyVal.vInt 42)]

def exC : ConjData :=
  initPositional [Arg.raw (PyVal.vBool false), Arg.raw (PyVal.vFloat 1)]

/-- C1: value merge is associative and right-biased: for Conjunction values
A, B, C, (A and B) and C == A and (B and C) == Conjunction(A, B, C); the
merged key set is the union of the operands and on a key collision the
right operand wins; in particular for A=Conjunction(5,0.5),
B=Conjunction(True,42), C=Conjunction(False,1.0) the merged bool entry is
False, the float entry is 1.0 and the int entry is 42 under both
groupings. -/
theorem c1_merge_assoc_right_biased :
    (∀ a b c : ConjData, NodupKeys a → NodupKeys b → NodupKeys c →
      conjEq (conjAnd (conjAnd a b) c) (conjAnd a (conjAnd b c)) = true ∧
      conjEq (conjAnd (conjAnd a b) c)
        (initPositional [Arg.sub a, Arg.sub b, Arg.sub c]) = true ∧
      keyFinset (conjAnd a b) = keyFinset a ∪ keyFinset b ∧
      (∀ t, t ∈ keysOf b → dlookup t (conjAnd a b) = dlookup t b)) ∧
    (dlookup PyType.bool (conjAnd (conjAnd exA exB) exC)
        = some (PyVal.vBool false) ∧
      dlookup PyType.float (conjAnd (conjAnd exA exB) exC)
        = some (PyVal.vFloat 1) ∧
      dlookup PyType.int (conjAnd (conjAnd exA exB) exC)
        = some (PyVal.vInt 42) ∧
      dlookup PyType.bool (conjAnd exA (conjAnd exB exC))
        = some (PyVal.vBool false) ∧
      dlookup PyType.float (conjAnd exA (conjAnd exB exC))
        = some (PyVal.vFloat 1) ∧
      dlookup PyType.int (conjAnd exA (conjAnd exB exC))
        = some (PyVal.vInt 42)) := by
  constructor
  · intro a b c ha hb hc
    have hbc : NodupKeys (dictInsertAll b c) := nodupKeys_dictInsertAll b c hb
    have hini : initPositional [Arg.sub a, Arg.sub b, Arg.sub c] =
        dictInsertAll (dictInsertAll (dictInsertAll [] a) b) c := rfl
    have hempty : keyFinset ([] : ConjData) = ∅ := rfl
    have hnila : NodupKeys (dictInsertAll ([] : ConjData) a) :=
      nodupKeys_dictInsertAll _ a nodupKeys_nil
    have hnilab : NodupKeys (dictInsertAll (dictInsertAll ([] : ConjData) a) b) :=
      nodupKeys_dictInsertAll _ b hnila
    refine ⟨?_, ?_, ?_, ?_⟩
    · apply conjEq_of_dlookup_eq
      · simp [conjAnd, keyFinset_dictInsertAll, Finset.union_assoc]
      · intro t
        rw [conjAnd, conjAnd, conjAnd, conjAnd,
          dlookup_dictInsertAll t _ c hc,
          dlookup_dictInsertAll t a b hb,
          dlookup_dictInsertAll t a _ hbc,
          dlookup_dictInsertAll t b c hc]
        cases hcc : dlookup t c <;> cases hbb : dlookup t b <;> simp
    · apply conjEq_of_dlookup_eq
      · rw [hini]
        simp [conjAnd, keyFinset_dictInsertAll, hempty]
      · intro t
        rw [hini, conjAnd, conjAnd,
          dlookup_dictInsertAll t _ c hc,
          dlookup_dictInsertAll t a b hb,
          dlookup_dictInsertAll t _ c hc,
          dlookup_dictInsertAll t _ b hb,
          dlookup_dictInsertAll t _ a ha,
          dlookup_nil]
        cases hcc : dlookup t c <;> cases hbb : dlookup t b <;>
          cases haa : dlookup t a <;> simp
    · simp [conjAnd, keyFinset_dictInsertAll]
    · intro t ht
      rw [conjAnd, dlookup_dictInsertAll t a b hb]
      have hs : (dlookup t b).isSome := (dlookup_isSome_iff t b).mpr ht
      rcases hbb : dlookup t b with _ | v
      · rw [hbb] at hs
        simp at hs
      · simp
  · decide

/-- Witness for C1: the general part instantiated at the concrete values
A=Conjunction(5,0.5), B=Conjunction(True,42), C=Conjunction(False,1.0). -/
theorem c1_merge_assoc_right_biased_witness :
    NodupKeys exA ∧ NodupKeys exB ∧ NodupKeys exC ∧
    conjEq (conjAnd (conjAnd exA exB) exC) (conjAnd exA (conjAnd exB exC))
      = true ∧
    conjEq (conjAnd (conjAnd exA exB) exC)
      (initPositional [Arg.sub exA, Arg.sub exB, Arg.sub exC]) = true := by
  have h := c1_merge_assoc_right_biased.1 exA exB exC
    (by decide) (by decide) (by decide)
  exact ⟨by decide, by decide, by decide, h.1, h.2.1⟩

/-- C3 counterexample: constructing with the explicit pair int="hello"
succeeds and silently stores the string under the int identifier; no
TypeMismatch error is raised (the kwargs loop performs no type check). -/
theorem c3_kwargs_mismatch_counterexample :
    conjInit [] [("int", PyVal.vStr "hello")] =
      Except.ok [(PyType.int, PyVal.vStr "hello")] := rfl

/-- C3 (amended): an explicit identifier=value pair whose identifier name
resolves is always stored as given, with no type check against the
identifier; construction only fails when the identifier name itself does
not resolve. -/
theorem c3_kwargs_stored_silently :
    ∀ (name : String) (v : PyVal) (t : PyType) (args : List Arg),
      evalTypeName name = Except.ok t →
      conjInit args [(name, v)] =
        Except.ok (dictInsert (initPositional args) t v) ∧
      dlookup t (dictInsert (initPositional args) t v) = some v := by
  intro name v t args h
  constructor
  · simp [conjInit, h]
  · rw [dlookup_dictInsert]
    simp

/-- Witness for C3 (amended theorem applied at the concrete mismatched
pair int=True). -/
theorem c3_kwargs_stored_silently_witness :
    conjInit [] [("int", PyVal.vBool true)] =
      Except.ok (dictInsert (initPositional []) PyType.int (PyVal.vBool true)) ∧
    dlookup PyType.int (dictInsert (initPositional []) PyType.int
      (PyVal.vBool true)) = some (PyVal.vBool true) :=
  c3_kwargs_stored_silently "int" (PyVal.vBool true) PyType.int [] rfl

/-! ### Type descriptors

`ConjunctionMeta` instances are modelled by their display name together
with their type set `_types`; the weak descriptor cache is omitted because
it only affects object identity, never the structural equality the claims
are about.
-/

def pyTypeName : PyType → String
  | .int => "int"
  | .str => "str"
  | .float => "float"
  | .bool => "bool"
  | .minted n => n

structure CMeta where
  cname : String
  types : Finset PyType
deriving DecidableEq

/-- A runtime type expression: a single identifier, a this-or-that
composite, an existing descriptor, or the Ellipsis wildcard. -/
inductive TypeExpr where
  | single (t : PyType)
  | tunion (l r : TypeExpr)
  | descr (m : CMeta)
  | ell

/-- The type expression normalizer: an existing descriptor contributes its
type set, a composite is recursively unwrapped (Ellipsis members are
skipped), Ellipsis alone normalizes to the empty set and a plain
identifier to a singleton. -/
def normalizeUnion : TypeExpr → Finset PyType
  | .single t => {t}
  | .tunion l r => normalizeUnion l ∪ normalizeUnion r
  | .descr m => m.types
  | .ell => ∅

def formatTypes (s : Finset PyType) : String :=
  if s = ∅ then "..."
  else String.intercalate " | " ((s.image pyTypeName).sort (fun a b => a ≤ b))

def conjunctionBase : CMeta :=
  { cname := "Conjunction", types := ∅ }

/-- `ConjunctionMeta.__getitem__`: normalize the expression; the empty
result returns the open base descriptor, otherwise a descriptor carrying
the normalized type set (the cache lookup is an identity optimization and
is omitted). -/
def metaGetitem (e : TypeExpr) : CMeta :=
  let n := normalizeUnion e
  if n = ∅ then conjunctionBase
  else { cname := "Conjunction[" ++ formatTypes n ++ "]", types := n }

/-- `ConjunctionMeta.__eq__`: permutation-invariant comparison of the two
type sets; the display name and construction history are ignored. -/
def metaEq (a b : CMeta) : Bool :=
  decide (a.types = b.types)

/-- `ConjunctionMeta.__contains__`: a descriptor is contained iff its type
set is a subset, a single identifier iff it is a member, anything else is
normalized first and checked as a subset. -/
def metaContains (cls : CMeta) (item : TypeExpr) : Bool :=
  match item with
  | .descr m => decide (m.types ⊆ cls.types)
  | .single t => decide (t ∈ cls.types)
  | _ => decide (normalizeUnion item ⊆ cls.types)

/-- `ConjunctionMeta.__instancecheck__` for a Conjunction instance: the
open descriptor matches every instance, otherwise the instance key set
must equal the descriptor type set exactly. -/
def instanceCheck (cls : CMeta) (v : ConjData) : Bool :=
  if cls.types = ∅ then true else decide (keyFinset v = cls.types)

theorem metaGetitem_types (e : TypeExpr) :
    (metaGetitem e).types = normalizeUnion e := by
  rw [metaGetitem]
  by_cases h : normalizeUnion e = ∅ <;> simp [h, conjunctionBase]

def exFS : TypeExpr := .tunion (.single .float) (.single .str)

def exFIS : TypeExpr :=
  .tunion (.single .float) (.tunion (.single .int) (.single .str))

def exFISB : TypeExpr :=
  .tunion (.single .float)
    (.tunion (.single .int) (.tunion (.single .str) (.single .bool)))

/-- C5: descriptor containment is subset containment: X in Y iff the type
set of X is a subset of the type set of Y, and the same subset criterion
applies to any normalized expression; in particular float|str is contained
in float|int|str and float|int|str|bool is not. -/
theorem c5_containment_is_subset :
    (∀ X Y : CMeta, metaContains Y (.descr X) = true ↔ X.types ⊆ Y.types) ∧
    (∀ (Y : CMeta) (e : TypeExpr),
      metaContains Y e = true ↔ normalizeUnion e ⊆ Y.types) ∧
    metaContains (metaGetitem exFIS) (.descr (metaGetitem exFS)) = true ∧
    metaContains (metaGetitem exFIS) (.descr (metaGetitem exFISB)) = false := by
  refine ⟨?_, ?_, by decide, by decide⟩
  · intro X Y
    simp [metaContains]
  · intro Y e
    cases e with
    | single t => simp [metaContains, normalizeUnion]
    | tunion l r => simp [metaContains]
    | descr m => simp [metaContains, normalizeUnion]
    | ell => simp [metaContains]

/-- Witness for C5: the subset criterion applied at concrete descriptors. -/
theorem c5_containment_is_subset_witness :
    metaContains (CMeta.mk "Y" {PyType.int, PyType.str})
      (.descr (CMeta.mk "X" {PyType.int})) = true :=
  (c5_containment_is_subset.1 (CMeta.mk "X" {PyType.int})
    (CMeta.mk "Y" {PyType.int, PyType.str})).mpr (by decide)

/-- C6: instance test exactness: a value matches a descriptor iff the
descriptor is open or the key set equals the descriptor type set exactly;
strict subsets and strict supersets never match. -/
theorem c6_instance_test_exact :
    (∀ (A : CMeta) (v : ConjData),
      instanceCheck A v = true ↔ (A.types = ∅ ∨ keyFinset v = A.types)) ∧
    (∀ (A : CMeta) (v : ConjData),
      A.types ≠ ∅ → keyFinset v ⊂ A.types → instanceCheck A v = false) ∧
    (∀ (A : CMeta) (v : ConjData),
      A.types ≠ ∅ → A.types ⊂ keyFinset v → instanceCheck A v = false) := by
  refine ⟨?_, ?_, ?_⟩
  · intro A v
    by_cases h : A.types = ∅ <;> simp [instanceCheck, h]
  · intro A v hA hs
    simp [instanceCheck, hA]
    exact hs.ne
  · intro A v hA hs
    simp [instanceCheck, hA]
    exact hs.ne.symm

/-- Witness for C6: a matching value, and a strict-subset value that does
not match. -/
theorem c6_instance_test_exact_witness :
    instanceCheck (CMeta.mk "A" {PyType.int}) [(PyType.int, PyVal.vInt 3)]
      = true ∧
    instanceCheck (CMeta.mk "A" {PyType.int}) ([] : ConjData) = false :=
  ⟨(c6_instance_test_exact.1 (CMeta.mk "A" {PyType.int})
      [(PyType.int, PyVal.vInt 3)]).mpr (Or.inr (by decide)),
    c6_instance_test_exact.2.1 (CMeta.mk "A" {PyType.int}) ([] : ConjData)
      (by decide) (by decide)⟩

/-- C7: constructing over an expression containing a nested descriptor
flattens its type set into the parent:
Descriptor[Descriptor[A|B] | C] == Descriptor[A|B|C], and a nested
descriptor inside a composite contributes its members, never itself as a
single element. -/
theorem c7_flattening :
    (∀ a b c : TypeExpr,
      metaEq (metaGetitem (.tunion (.descr (metaGetitem (.tunion a b))) c))
        (metaGetitem (.tunion a (.tunion b c))) = true) ∧
    (∀ (m : CMeta) (e : TypeExpr),
      normalizeUnion (.tunion (.descr m) e) = m.types ∪ normalizeUnion e) := by
  constructor
  · intro a b c
    simp [metaEq, metaGetitem_types, normalizeUnion, Finset.union_assoc]
  · intro m e
    rfl

/-- Witness for C7: flattening at concrete component types. -/
theorem c7_flattening_witness :
    metaEq
      (metaGetitem (.tunion (.descr (metaGetitem
        (.tunion (.single .int) (.single .str)))) (.single .float)))
      (metaGetitem (.tunion (.single .int)
        (.tunion (.single .str) (.single .float)))) = true :=
  c7_flattening.1 (.single .int) (.single .str) (.single .float)

/-- C8: permutation invariance: Descriptor[A|B|C] == Descriptor[C|A|B],
and two descriptors are equal iff their type sets are equal as sets,
independent of order and construction history. -/
theorem c8_permutation_invariance :
    (∀ a b c : TypeExpr,
      metaEq (metaGetitem (.tunion a (.tunion b c)))
        (metaGetitem (.tunion c (.tunion a b))) = true) ∧
    (∀ m1 m2 : CMeta, metaEq m1 m2 = true ↔ m1.types = m2.types) := by
  constructor
  · intro a b c
    simp [metaEq, metaGetitem_types, normalizeUnion]
    ext t
    simp
    tauto
  · intro m1 m2
    simp [metaEq]

/-- Witness for C8: permutation invariance at concrete component types,
and equality of two descriptors with different display names but equal
type sets. -/
theorem c8_permutation_invariance_witness :
    metaEq (metaGetitem (.tunion (.single .int)
        (.tunion (.single .str) (.single .float))))
      (metaGetitem (.tunion (.single .float)
        (.tunion (.single .int) (.single .str)))) = true ∧
    metaEq (CMeta.mk "first" {PyType.int}) (CMeta.mk "second" {PyType.int})
      = true :=
  ⟨c8_permutation_invariance.1 (.single .int) (.single .str) (.single .float),
    (c8_permutation_invariance.2 (CMeta.mk "first" {PyType.int})
      (CMeta.mk "second" {PyType.int})).mpr (by decide)⟩

/-! ### Slice extraction -/

/-- `Conjunction.__getitem__`: normalize the requested expression to a type
set, fail with the set of missing identifiers when it is not a subset of
the stored keys, otherwise return a fresh Conjunction restricted to the
requested keys (the set-comprehension iterates the requested type set in
unspecified order; the resulting mapping is modelled by filtering the
stored entries, which denotes the same dict). -/
def conjGetitem (v : ConjData) (e : TypeExpr) : Except (Finset PyType) ConjData :=
  let s := normalizeUnion e
  let missing := s \ keyFinset v
  if missing = ∅ then .ok (v.filter (fun p => decide (p.1 ∈ s)))
  else .error missing

theorem dlookup_filter_mem (t : PyType) (v : ConjData) (s : Finset PyType) :
    dlookup t (v.filter (fun p => decide (p.1 ∈ s))) =
      if t ∈ s then dlookup t v else none := by
  induction v with
  | nil => simp [dlookup]
  | cons p rest ih =>
    obtain ⟨a, b⟩ := p
    by_cases ha : a ∈ s
    · by_cases ht : t = a
      · subst ht
        simp [List.filter, ha, dlookup]
      · simp [List.filter, ha, dlookup, ht, ih]
    · by_cases ht : t = a
      · subst ht
        simp [List.filter, ha, dlookup, ih]
      · simp [List.filter, ha, dlookup, ht, ih]

theorem keyFinset_filter_mem (v : ConjData) (s : Finset PyType) :
    keyFinset (v.filter (fun p => decide (p.1 ∈ s))) = keyFinset v ∩ s := by
  induction v with
  | nil => simp [keyFinset, keysOf]
  | cons p rest ih =>
    obtain ⟨a, b⟩ := p
    have hcons : keyFinset ((a, b) :: rest) = insert a (keyFinset rest) := by
      simp [keyFinset, keysOf]
    by_cases ha : a ∈ s
    · have : keyFinset ((a, b) :: rest.filter (fun p => decide (p.1 ∈ s))) =
          insert a (keyFinset (rest.filter (fun p => decide (p.1 ∈ s)))) := by
        simp [keyFinset, keysOf]
      simp [List.filter, ha, this, ih, hcons, Finset.insert_inter_of_mem]
    · simp [List.filter, ha, ih, hcons, Finset.insert_inter_of_not_mem]

/-- C9: slice extraction: V[E] normalizes E to a type set S; when S is a
subset of the stored keys it returns a new value whose map is exactly the
restriction of V to S; otherwise it fails naming exactly the absent
identifiers.  (The original value is untouched: the operation is a pure
function of V.) -/
theorem c9_slice_extraction :
    ∀ (v : ConjData) (e : TypeExpr),
      (normalizeUnion e ⊆ keyFinset v →
        conjGetitem v e =
          .ok (v.filter (fun p => decide (p.1 ∈ normalizeUnion e))) ∧
        (∀ t, dlookup t (v.filter (fun p => decide (p.1 ∈ normalizeUnion e))) =
          if t ∈ normalizeUnion e then dlookup t v else none) ∧
        keyFinset (v.filter (fun p => decide (p.1 ∈ normalizeUnion e))) =
          normalizeUnion e) ∧
      (¬ normalizeUnion e ⊆ keyFinset v →
        conjGetitem v e = .error (normalizeUnion e \ keyFinset v)) := by
  intro v e
  constructor
  · intro hsub
    have hmiss : normalizeUnion e \ keyFinset v = ∅ :=
      Finset.sdiff_eq_empty_iff_subset.mpr hsub
    refine ⟨?_, ?_, ?_⟩
    · simp [conjGetitem, hmiss]
    · intro t
      exact dlookup_filter_mem t v (normalizeUnion e)
    · rw [keyFinset_filter_mem, Finset.inter_comm]
      exact Finset.inter_eq_left.mpr hsub
  · intro hsub
    have hmiss : normalizeUnion e \ keyFinset v ≠ ∅ := by
      intro h
      exact hsub (Finset.sdiff_eq_empty_iff_subset.mp h)
    simp [conjGetitem, hmiss]

/-- Witness for C9: extracting the int slice from Conjunction(5, "a")
returns exactly the int entry, and requesting a missing float fails
naming float. -/
theorem c9_slice_extraction_witness :
    conjGetitem [(PyType.int, PyVal.vInt 5), (PyType.str, PyVal.vStr "a")]
        (.single .int) =
      .ok [(PyType.int, PyVal.vInt 5)] ∧
    conjGetitem [(PyType.int, PyVal.vInt 5)] (.single .float) =
      .error {PyType.float} := by
  constructor
  · have h := (c9_slice_extraction
      [(PyType.int, PyVal.vInt 5), (PyType.str, PyVal.vStr "a")]
      (.single .int)).1 (by decide)
    rw [h.1]
    rfl
  · exact (c9_slice_extraction [(PyType.int, PyVal.vInt 5)]
      (.single .float)).2 (by decide)

/-! ### Minted identity registry

`mint` keeps three process-wide tables; a minted constructor is a fresh
function object, modelled by a fresh numeric identity drawn from a
counter.  Registry state is passed explicitly.
-/

structure MintState where
  mintedNames : List (String × Nat)
  mintedConstructors : List (Nat × PyType)
  nextId : Nat

def mintInitial : MintState :=
  { mintedNames := [], mintedConstructors := [], nextId := 0 }

/-- `mint(name, typ)`: a name registered with the same type returns the
existing constructor unchanged; the same name with a different type fails;
a fresh name creates a new constructor identity and registers both
directions. -/
def mint (s : MintState) (name : String) (typ : PyType) :
    Except String (Nat × MintState) :=
  match dlookup name s.mintedNames with
  | some c =>
      match dlookup c s.mintedConstructors with
      | some existingType =>
          if existingType = typ then .ok (c, s)
          else .error ("Name " ++ name ++
            " is already registered for a different type.")
      | none => .error "KeyError"
  | none =>
      .ok (s.nextId,
        { mintedNames := dictInsert s.mintedNames name s.nextId,
          mintedConstructors := dictInsert s.mintedConstructors s.nextId typ,
          nextId := s.nextId + 1 })

/-- Registry invariant maintained by `mint`: tables are genuine dicts, all
registered constructor identities are below the freshness counter,
distinct names map to distinct constructors and every registered
constructor has an origin type. -/
structure MintWF (s : MintState) : Prop where
  namesNodup : NodupKeys s.mintedNames
  ctorsNodup : NodupKeys s.mintedConstructors
  valsNodup : (s.mintedNames.map Prod.snd).Nodup
  bound : ∀ p ∈ s.mintedNames, p.2 < s.nextId
  boundC : ∀ p ∈ s.mintedConstructors, p.1 < s.nextId
  linked : ∀ p ∈ s.mintedNames,
    ∃ t, dlookup p.2 s.mintedConstructors = some t

theorem mint_ok_facts {s : MintState} {name : String} {typ : PyType}
    {c : Nat} {s2 : MintState} (hwf : MintWF s)
    (h : mint s name typ = .ok (c, s2)) :
    MintWF s2 ∧ dlookup name s2.mintedNames = some c ∧
      dlookup c s2.mintedConstructors = some typ ∧ c < s2.nextId := by
  rcases hn : dlookup name s.mintedNames with _ | c0
  · rw [mint, hn] at h
    simp at h
    obtain ⟨rfl, rfl⟩ := h
    have hfreshName : name ∉ keysOf s.mintedNames :=
      (dlookup_eq_none_iff name s.mintedNames).mp hn
    have hfreshCtor : s.nextId ∉ keysOf s.mintedConstructors := by
      intro hmem
      simp [keysOf] at hmem
      rcases hmem with ⟨t, ht⟩
      exact absurd (hwf.boundC _ ht) (by simp)
    have hnames : dictInsert s.mintedNames name s.nextId =
        s.mintedNames ++ [(name, s.nextId)] :=
      dictInsert_eq_append _ _ _ hfreshName
    have hctors : dictInsert s.mintedConstructors s.nextId typ =
        s.mintedConstructors ++ [(s.nextId, typ)] :=
      dictInsert_eq_append _ _ _ hfreshCtor
    refine ⟨⟨?_, ?_, ?_, ?_, ?_, ?_⟩, ?_, ?_, ?_⟩
    · exact nodupKeys_dictInsert _ _ _ hwf.namesNodup
    · exact nodupKeys_dictInsert _ _ _ hwf.ctorsNodup
    · show ((dictInsert s.mintedNames name s.nextId).map Prod.snd).Nodup
      rw [hnames, List.map_append]
      refine List.Nodup.append hwf.valsNodup (by simp) ?_
      intro a ha hb
      simp at hb
      subst hb
      rcases List.mem_map.mp ha with ⟨p, hp, hpa⟩
      have hlt := hwf.bound p hp
      rw [hpa] at hlt
      exact absurd hlt (lt_irrefl _)
    · show ∀ p ∈ dictInsert s.mintedNames name s.nextId, p.2 < s.nextId + 1
      intro p hp
      rw [hnames] at hp
      rcases List.mem_append.mp hp with hp | hp
      · exact Nat.lt_succ_of_lt (hwf.bound p hp)
      · obtain rfl := List.mem_singleton.mp hp
        exact Nat.lt_succ_self _
    · show ∀ p ∈ dictInsert s.mintedConstructors s.nextId typ,
        p.1 < s.nextId + 1
      intro p hp
      rw [hctors] at hp
      rcases List.mem_append.mp hp with hp | hp
      · exact Nat.lt_succ_of_lt (hwf.boundC p hp)
      · obtain rfl := List.mem_singleton.mp hp
        exact Nat.lt_succ_self _
    · show ∀ p ∈ dictInsert s.mintedNames name s.nextId,
        ∃ t, dlookup p.2 (dictInsert s.mintedConstructors s.nextId typ)
          = some t
      intro p hp
      rw [hnames] at hp
      rcases List.mem_append.mp hp with hp | hp
      · obtain ⟨t, ht⟩ := hwf.linked p hp
        refine ⟨t, ?_⟩
        show dlookup p.2 (dictInsert s.mintedConstructors s.nextId typ) = some t
        rw [dlookup_dictInsert]
        have hne2 : p.2 ≠ s.nextId := by
          intro he
          have hlt := hwf.bound p hp
          rw [he] at hlt
          exact absurd hlt (lt_irrefl _)
        rw [if_neg hne2]
        exact ht
      · obtain rfl := List.mem_singleton.mp hp
        refine ⟨typ, ?_⟩
        show dlookup s.nextId (dictInsert s.mintedConstructors s.nextId typ)
          = some typ
        rw [dlookup_dictInsert, if_pos rfl]
    · show dlookup name (dictInsert s.mintedNames name s.nextId)
        = some s.nextId
      rw [dlookup_dictInsert, if_pos rfl]
    · show dlookup s.nextId (dictInsert s.mintedConstructors s.nextId typ)
        = some typ
      rw [dlookup_dictInsert, if_pos rfl]
    · exact Nat.lt_succ_self _
  · rw [mint, hn] at h
    simp at h
    rcases hc : dlookup c0 s.mintedConstructors with _ | t0 <;>
      rw [hc] at h <;> simp at h
    by_cases ht : t0 = typ
    · rw [if_pos ht] at h
      simp at h
      obtain ⟨rfl, rfl⟩ := h
      subst ht
      exact ⟨hwf, hn, hc, hwf.bound _ (mem_of_dlookup_eq_some hn)⟩
    · rw [if_neg ht] at h
      simp at h

/-- C4: minting identity rules: minting the same (name, origin type) twice
returns the same identity and state; re-minting a name at a different
origin type fails; minting a different name afterwards yields a distinct
identity, and the two identities act as independent map keys. -/
theorem c4_minting_identity_rules :
    ∀ (s : MintState) (n : String) (t : PyType) (c : Nat) (s2 : MintState),
      MintWF s → mint s n t = .ok (c, s2) →
      mint s2 n t = .ok (c, s2) ∧
      (∀ t2, t2 ≠ t →
        mint s2 n t2 = .error ("Name " ++ n ++
          " is already registered for a different type.")) ∧
      (∀ n2 t2 c2 s3, n2 ≠ n → mint s2 n2 t2 = .ok (c2, s3) →
        c2 ≠ c ∧
        dlookup c (dictInsert (dictInsert [] c (0 : Nat)) c2 1) = some 0 ∧
        dlookup c2 (dictInsert (dictInsert [] c (0 : Nat)) c2 1) = some 1) := by
  intro s n t c s2 hwf h
  obtain ⟨hwf2, hname, hctor, hlt⟩ := mint_ok_facts hwf h
  refine ⟨?_, ?_, ?_⟩
  · rw [mint, hname]
    simp [hctor]
  · intro t2 ht2
    rw [mint, hname]
    simp [hctor]
    intro he
    exact absurd he.symm ht2
  · intro n2 t2 c2 s3 hne h2
    have hcne : c2 ≠ c := by
      rcases hn2 : dlookup n2 s2.mintedNames with _ | c0
      · rw [mint, hn2] at h2
        simp at h2
        obtain ⟨he1, he2⟩ := h2
        intro he
        omega
      · rw [mint, hn2] at h2
        simp at h2
        rcases hc0 : dlookup c0 s2.mintedConstructors with _ | t0 <;>
          rw [hc0] at h2 <;> simp at h2
        by_cases ht0 : t0 = t2
        · rw [if_pos ht0] at h2
          simp at h2
          obtain ⟨he1, he2⟩ := h2
          intro he
          have hcc : c2 = c0 := by omega
          have hm1 : (n, c) ∈ s2.mintedNames := mem_of_dlookup_eq_some hname
          have hm2 : (n2, c) ∈ s2.mintedNames := by
            rw [← he, hcc]
            exact mem_of_dlookup_eq_some hn2
          have hpair := List.inj_on_of_nodup_map hwf2.valsNodup hm1 hm2 rfl
          exact hne (congrArg Prod.fst hpair).symm
        · rw [if_neg ht0] at h2
          simp at h2
    refine ⟨hcne, ?_, ?_⟩
    · rw [dlookup_dictInsert, if_neg (fun he => hcne he.symm),
        dlookup_dictInsert, if_pos rfl]
    · rw [dlookup_dictInsert, if_pos rfl]

def exMintState : MintState :=
  { mintedNames := [("N", 0)], mintedConstructors := [(0, PyType.int)],
    nextId := 1 }

/-- Witness for C4: minting "N" at int from the empty registry, then
re-minting it, conflicting it with str, and minting a distinct name. -/
theorem c4_minting_identity_rules_witness :
    mint exMintState "N" PyType.int = .ok (0, exMintState) ∧
    mint exMintState "N" PyType.str = .error ("Name " ++ "N" ++
      " is already registered for a different type.") ∧
    (1 : Nat) ≠ 0 := by
  have hwf : MintWF mintInitial := by
    refine ⟨nodupKeys_nil, nodupKeys_nil, ?_, ?_, ?_, ?_⟩ <;>
      simp [mintInitial]
  have h0 : mint mintInitial "N" PyType.int = .ok (0, exMintState) := rfl
  have h := c4_minting_identity_rules mintInitial "N" PyType.int 0
    exMintState hwf h0
  refine ⟨h.1, h.2.1 PyType.str (by decide), ?_⟩
  exact (h.2.2 "N2" PyType.int 1
    { mintedNames := [("N", 0), ("N2", 1)],
      mintedConstructors := [(0, PyType.int), (1, PyType.int)], nextId := 2 }
    (by decide) rfl).1

/-! ### Value hashing

`Conjunction.__hash__` hashes the frozenset of (type, hash(value)) pairs.
Python hashes an exact rational p/q as p times the modular inverse of q
modulo the Mersenne prime 2^61-1, carrying the sign and mapping -1 to -2,
which makes numerically equal bool/int/float values hash alike; the
per-process randomized string hash is modelled by a fixed deterministic
function, and the order-independent frozenset hash by a sum over the set.
All modelled payloads are hashable, so the id() fallback branch for
unhashable payloads is never taken.
-/

def pyHashPrime : ℤ := 2 ^ 61 - 1

def ratHash (q : ℚ) : ℤ :=
  if (q.den : ℤ) % pyHashPrime = 0 then 314159
  else
    let inv := Nat.gcdA q.den (2 ^ 61 - 1)
    let m := ((q.num.natAbs : ℤ) * inv) % pyHashPrime
    let r := if q.num < 0 then -m else m
    if r = -1 then -2 else r

def strHash (s : String) : ℤ :=
  s.data.foldl (fun a c => a * 1000003 + (c.toNat : ℤ)) 5381

def pyHash (v : PyVal) : ℤ :=
  match ratOf v with
  | some q => ratHash q
  | none =>
      match v with
      | .vStr s => strHash s
      | _ => 0

def typeHash : PyType → ℤ
  | .int => 1
  | .str => 2
  | .float => 3
  | .bool => 4
  | .minted n => 100 + strHash n

def pairHash (t : PyType) (h : ℤ) : ℤ :=
  typeHash t * 3644798167 + h

def conjHash (a : ConjData) : ℤ :=
  ((a.map (fun p => (p.1, pyHash p.2))).toFinset).sum
    (fun p => pairHash p.1 p.2)

theorem pyEq_hash_congr {v w : PyVal} (h : pyEq v w = true) :
    pyHash v = pyHash w := by
  cases v <;> cases w <;>
    simp [pyEq, ratOf, pyHash] at h ⊢ <;>
    first
      | rfl
      | rw [h]

theorem conjEq_elim {a b : ConjData} (h : conjEq a b = true) :
    keyFinset a = keyFinset b ∧
    ∀ t va vb, dlookup t a = some va → dlookup t b = some vb →
      pyEq va vb = true := by
  by_cases hk : keyFinset a = keyFinset b
  · rw [conjEq, if_pos hk] at h
    refine ⟨hk, ?_⟩
    intro t va vb hva hvb
    have hmem : t ∈ keysOf a := by
      rw [← dlookup_isSome_iff, hva]
      rfl
    have := List.all_eq_true.mp h t hmem
    rw [hva, hvb] at this
    exact this
  · rw [conjEq, if_neg hk] at h
    simp at h

/-- C10: hash/equality consistency: for Conjunction values with hashable
payloads, equal values have equal hashes, and the hash is a function of
the set of (identifier, payload hash) pairs, hence invariant under the
construction order of the entries. -/
theorem c10_hash_consistent_with_eq :
    (∀ a b : ConjData, NodupKeys a → NodupKeys b → conjEq a b = true →
      conjHash a = conjHash b) ∧
    (∀ a b : ConjData, a.Perm b → conjHash a = conjHash b) := by
  constructor
  · intro a b ha hb heq
    obtain ⟨hk, hv⟩ := conjEq_elim heq
    have hset : (a.map (fun p => (p.1, pyHash p.2))).toFinset =
        (b.map (fun p => (p.1, pyHash p.2))).toFinset := by
      ext x
      obtain ⟨t, h⟩ := x
      simp only [List.mem_toFinset, List.mem_map]
      constructor
      · rintro ⟨⟨t1, v⟩, hmem, hpair⟩
        simp only [Prod.mk.injEq] at hpair
        obtain ⟨rfl, rfl⟩ := hpair
        have hva : dlookup t1 a = some v := dlookup_eq_some_of_mem ha hmem
        have hta : t1 ∈ keyFinset a := by
          simp [keyFinset, keysOf]
          exact ⟨v, hmem⟩
        have htb : t1 ∈ keysOf b := by
          have hmb := hk ▸ hta
          simpa [keyFinset] using hmb
        obtain ⟨vb, hvb⟩ : ∃ vb, dlookup t1 b = some vb := by
          rcases hx : dlookup t1 b with _ | vb
          · rw [dlookup_eq_none_iff] at hx
            exact absurd htb hx
          · exact ⟨vb, rfl⟩
        have hcong := pyEq_hash_congr (hv t1 v vb hva hvb)
        refine ⟨(t1, vb), mem_of_dlookup_eq_some hvb, ?_⟩
        simp [hcong]
      · rintro ⟨⟨t1, v⟩, hmem, hpair⟩
        simp only [Prod.mk.injEq] at hpair
        obtain ⟨rfl, rfl⟩ := hpair
        have hvb : dlookup t1 b = some v := dlookup_eq_some_of_mem hb hmem
        have htb : t1 ∈ keyFinset b := by
          simp [keyFinset, keysOf]
          exact ⟨v, hmem⟩
        have hta : t1 ∈ keysOf a := by
          have hma := hk.symm ▸ htb
          simpa [keyFinset] using hma
        obtain ⟨va, hva⟩ : ∃ va, dlookup t1 a = some va := by
          rcases hx : dlookup t1 a with _ | va
          · rw [dlookup_eq_none_iff] at hx
            exact absurd hta hx
          · exact ⟨va, rfl⟩
        have hcong := pyEq_hash_congr (hv t1 va v hva hvb)
        refine ⟨(t1, va), mem_of_dlookup_eq_some hva, ?_⟩
        simp [hcong]
    rw [conjHash, conjHash, hset]
  · intro a b hperm
    have hm : (a.map (fun p => (p.1, pyHash p.2))).Perm
        (b.map (fun p => (p.1, pyHash p.2))) := hperm.map _
    rw [conjHash, conjHash, List.toFinset_eq_of_perm _ _ hm]

/-- Witness for C10: two equal values built in different entry orders with
a cross-type equal payload (True == 1) have equal hashes. -/
theorem c10_hash_consistent_with_eq_witness :
    conjHash [(PyType.int, PyVal.vInt 1), (PyType.str, PyVal.vStr "x")] =
      conjHash [(PyType.str, PyVal.vStr "x"), (PyType.int, PyVal.vBool true)] :=
  c10_hash_consistent_with_eq.1
    [(PyType.int, PyVal.vInt 1), (PyType.str, PyVal.vStr "x")]
    [(PyType.str, PyVal.vStr "x"), (PyType.int, PyVal.vBool true)]
    (by decide) (by decide) (by decide)

/-! ### NDJSON persistence codec

The wire record of a Conjunction is an ordered list of
(type representation, payload key) pairs plus a payload map; the
`__conjunction_types__` metadata list and the payload entries of the JSON
object are modelled structurally as the two components of `Wire`.  JSON
scalar payloads keep the int/float distinction the Python json module
preserves.  The global mint registry, the ndjson mint
serializer/deserializer registries and the TypeRegistry instance are
explicit fields of `NdjsonModel`.
-/

inductive JVal where
  | jNull
  | jBool (b : Bool)
  | jInt (z : ℤ)
  | jFloat (q : ℚ)
  | jStr (s : String)
  | jArr (xs : List JVal)
  | jObj (fs : List (String × JVal))

/-- What json.dumps followed by json.loads does to a scalar Python value
passed through unchanged. -/
def pyToJ : PyVal → JVal
  | .vInt z => .jInt z
  | .vFloat q => .jFloat q
  | .vBool b => .jBool b
  | .vStr s => .jStr s

structure NdjsonModel where
  mintNames : List String
  ndjsonSer : List (String × (PyVal → JVal))
  ndjsonDeser : List (String × (JVal → PyVal))
  regSer : List (PyType × (PyVal → JVal))
  regDeser : List (String × (JVal → PyVal))
  safeGlobals : List (String × PyType)

/-- `_serialize_type`: a minted constructor serializes to its registered
mint name (its `__name__`), a built-in type to its simple name. -/
def serializeTypeRepr (t : PyType) : String :=
  match t with
  | .minted n => n
  | _ => pyTypeName t

/-- `_deserialize_type`: a registered mint name resolves to its
constructor first; otherwise the string is evaluated in a namespace of
the built-in type names overridden by the registry's safe globals, and an
unknown name fails. -/
def deserializeTypeRepr (m : NdjsonModel) (s : String) : Except String PyType :=
  if s ∈ m.mintNames then .ok (.minted s)
  else
    match dlookup s m.safeGlobals with
    | some t => .ok t
    | none =>
        match s with
        | "int" => .ok .int
        | "str" => .ok .str
        | "float" => .ok .float
        | "bool" => .ok .bool
        | _ => .error ("Cannot deserialize type from repr: " ++ s)

/-- Python `isinstance(value, registered_type)` on the modelled fragment:
bool instances are instances of int; a minted constructor is not a type
(isinstance would raise there, a case the theorems never reach). -/
def pyIsInstance (v : PyVal) (t : PyType) : Bool :=
  match t with
  | .int => decide (typeOf v = .int ∨ typeOf v = .bool)
  | .minted _ => false
  | _ => decide (typeOf v = t)

/-- `TypeRegistry.serialize_value` after the ndjson-mint check: exact-type
serializer (no modelled type is generic, so the origin check coincides),
then a scan for a registered type the value is an instance of, then JSON
pass-through (every modelled scalar is JSON-representable, so the
NotSerializable branch is unreachable in the fragment). -/
def serializeValueRegistry (m : NdjsonModel) (v : PyVal) (t : PyType) :
    Except String JVal :=
  match dlookup t m.regSer with
  | some f => .ok (f v)
  | none =>
      match m.regSer.find? (fun p => pyIsInstance v p.1) with
      | some p => .ok (p.2 v)
      | none => .ok (pyToJ v)

/-- `serialize_value`: the global ndjson mint serializer keyed by the
constructor is consulted first, then the TypeRegistry resolution. -/
def serializeValue (m : NdjsonModel) (v : PyVal) (t : PyType) :
    Except String JVal :=
  match t with
  | .minted n =>
      match dlookup n m.ndjsonSer with
      | some f => .ok (f v)
      | none => serializeValueRegistry m v t
  | _ => serializeValueRegistry m v t

def jTruthy : JVal → Bool
  | .jNull => false
  | .jBool b => b
  | .jInt z => decide (z ≠ 0)
  | .jFloat q => decide (q ≠ 0)
  | .jStr s => decide (s ≠ "")
  | .jArr xs => !xs.isEmpty
  | .jObj fs => !fs.isEmpty

/-- `value_type(data)`: the Python built-in constructor applied to the
parsed JSON payload, on the scalar fragment (int() truncates a float
toward zero and maps a bool to 0/1, bool() is truthiness, str() and
numeric-string parsing outside the fragment are not modelled and a None
payload yields the not-modelled None). -/
def pyConstruct (t : PyType) (data : JVal) : Except String PyVal :=
  match t, data with
  | .int, .jInt z => .ok (.vInt z)
  | .int, .jFloat q => .ok (.vInt (q.num.tdiv (q.den : ℤ)))
  | .int, .jBool b => .ok (.vInt (if b then 1 else 0))
  | .float, .jInt z => .ok (.vFloat (z : ℚ))
  | .float, .jFloat q => .ok (.vFloat q)
  | .float, .jBool b => .ok (.vFloat (if b then 1 else 0))
  | .bool, d => .ok (.vBool (jTruthy d))
  | .str, .jStr s => .ok (.vStr s)
  | _, _ => .error "TypeError"

/-- A parsed JSON payload returned as-is as a Python value (the
deserializer fallback); containers and null are outside the scalar
fragment. -/
def jToPy : JVal → Except String PyVal
  | .jInt z => .ok (.vInt z)
  | .jFloat q => .ok (.vFloat q)
  | .jBool b => .ok (.vBool b)
  | .jStr s => .ok (.vStr s)
  | _ => .error "non-scalar payload outside the modelled fragment"

/-- `deserialize_value`: for a minted constructor the ndjson mint
deserializer keyed by its name is consulted, then the TypeRegistry
deserializers by constructor name, then (a constructor being no type and
having no origin) the payload is returned as-is; for a built-in type the
TypeRegistry deserializers by type name, then direct construction. -/
def deserializeValue (m : NdjsonModel) (data : JVal) (t : PyType) :
    Except String PyVal :=
  match t with
  | .minted n =>
      match dlookup n m.ndjsonDeser with
      | some g => .ok (g data)
      | none =>
          match dlookup n m.regDeser with
          | some g => .ok (g data)
          | none => jToPy data
  | _ =>
      match dlookup (pyTypeName t) m.regDeser with
      | some g => .ok (g data)
      | none => pyConstruct t data

structure Wire where
  meta : List (String × String)
  payload : List (String × JVal)

/-- The serialization loop of `ConjunctionSerializer.to_json`: for each
stored entry, serialize the type representation, derive the payload key
from the type's base name and a per-base counter, serialize the value and
record both. -/
def toJsonGo (m : NdjsonModel) (counts : List (String × Nat))
    (meta : List (String × String)) (payload : List (String × JVal)) :
    ConjData → Except String Wire
  | [] => .ok ⟨meta, payload⟩
  | (t, v) :: rest =>
      let trepr := serializeTypeRepr t
      let base := pyTypeName t
      let c := (dlookup base counts).getD 0
      let key := base ++ "_" ++ toString c
      match serializeValue m v t with
      | .error e => .error e
      | .ok sv =>
          toJsonGo m (dictInsert counts base (c + 1)) (meta ++ [(trepr, key)])
            (dictInsert payload key sv) rest

def toJson (m : NdjsonModel) (conj : ConjData) : Except String Wire :=
  toJsonGo m [] [] [] conj

/-- The deserialization loop of `ConjunctionSerializer.from_json`: for
each metadata entry, require the payload key to be present, deserialize
the type representation and then the value, and assign into the rebuilt
data dict. -/
def fromJsonGo (m : NdjsonModel) (payload : List (String × JVal))
    (acc : ConjData) : List (String × String) → Except String ConjData
  | [] => .ok acc
  | (trepr, key) :: rest =>
      match dlookup key payload with
      | none => .error ("Missing value for key: " ++ key)
      | some sv =>
          match deserializeTypeRepr m trepr with
          | .error e => .error e
          | .ok t =>
              match deserializeValue m sv t with
              | .error e => .error e
              | .ok v => fromJsonGo m payload (dictInsert acc t v) rest

/-- `ConjunctionSerializer.from_json`: empty type metadata is rejected
(Cannot create empty Conjunction), otherwise the entries are rebuilt in
metadata order. -/
def fromJson (m : NdjsonModel) (w : Wire) : Except String ConjData :=
  if w.meta = [] then .error "Cannot create empty Conjunction"
  else fromJsonGo m w.payload [] w.meta

def emptyModel : NdjsonModel :=
  { mintNames := [], ndjsonSer := [], ndjsonDeser := [], regSer := [],
    regDeser := [], safeGlobals := [] }

theorem str_of_data_eq {s t : String} (h : s.data = t.data) : s = t := by
  cases s
  cases t
  simp at h
  rw [h]

theorem list_concat_inj {l1 l2 : List Char} {x y : Char}
    (h : l1 ++ [x] = l2 ++ [y]) : l1 = l2 ∧ x = y := by
  have hl : l1.length = l2.length := by
    have := congrArg List.length h
    simpa using this
  obtain ⟨h1, h2⟩ := List.append_inj h hl
  exact ⟨h1, by simpa using h2⟩

theorem toString_len_one {i : Nat} (hi : i ≤ 1) :
    (toString i).data.length = 1 := by
  interval_cases i <;> rfl

theorem toString_inj_small {i j : Nat} (hi : i ≤ 1) (hj : j ≤ 1)
    (h : toString i = toString j) : i = j := by
  interval_cases i <;> interval_cases j <;>
    first
      | rfl
      | exact absurd h (by decide)

/-- The payload key strings generated for per-base counters 0 and 1 are
injective in (base, counter). -/
theorem encodeKey_inj_small {b1 b2 : String} {i j : Nat} (hi : i ≤ 1)
    (hj : j ≤ 1) (h : b1 ++ "_" ++ toString i = b2 ++ "_" ++ toString j) :
    b1 = b2 ∧ i = j := by
  have hd := congrArg String.data h
  rw [String.data_append, String.data_append, String.data_append,
    String.data_append] at hd
  have hlen : (b1.data ++ ("_" : String).data).length =
      (b2.data ++ ("_" : String).data).length := by
    have htot := congrArg List.length hd
    simp only [List.length_append, toString_len_one hi,
      toString_len_one hj] at htot
    simp only [List.length_append]
    omega
  obtain ⟨h1, h2⟩ := List.append_inj hd hlen
  have hb : b1 = b2 := by
    have hu : ("_" : String).data = ['_'] := rfl
    rw [hu] at h1
    exact str_of_data_eq (list_concat_inj h1).1
  exact ⟨hb, toString_inj_small hi hj (str_of_data_eq h2)⟩

/-- All component types whose base name is a given string. -/
def fiberOf (b : String) : List PyType :=
  (if b = "int" then [PyType.int]
   else if b = "str" then [PyType.str]
   else if b = "float" then [PyType.float]
   else if b = "bool" then [PyType.bool]
   else []) ++ [PyType.minted b]

theorem mem_fiberOf {t : PyType} {b : String} (h : pyTypeName t = b) :
    t ∈ fiberOf b := by
  cases t <;> simp [pyTypeName] at h <;> subst h <;> simp [fiberOf]

theorem fiberOf_nodup (b : String) : (fiberOf b).Nodup := by
  rw [fiberOf]
  split_ifs <;> simp

theorem fiberOf_length (b : String) : (fiberOf b).length ≤ 2 := by
  rw [fiberOf]
  split_ifs <;> simp

/-- Distinct keys share a base name at most twice: a built-in type and a
minted identity of the same name. -/
theorem count_pyTypeName_le_two (ts : List PyType) (hnd : ts.Nodup)
    (b : String) : ((ts.map pyTypeName).count b) ≤ 2 := by
  have h1 : (ts.map pyTypeName).count b =
      (ts.filter (fun t => pyTypeName t == b)).length := by
    rw [List.count, List.countP_map, List.countP_eq_length_filter]
    rfl
  rw [h1]
  have hsub : ∀ t ∈ ts.filter (fun t => pyTypeName t == b), t ∈ fiberOf b := by
    intro t ht
    rw [List.mem_filter] at ht
    exact mem_fiberOf (by simpa using ht.2)
  have hndf : (ts.filter (fun t => pyTypeName t == b)).Nodup :=
    hnd.filter _
  calc (ts.filter (fun t => pyTypeName t == b)).length
      = (ts.filter (fun t => pyTypeName t == b)).toFinset.card :=
        (List.toFinset_card_of_nodup hndf).symm
    _ ≤ (fiberOf b).toFinset.card := by
        apply Finset.card_le_card
        intro x hx
        rw [List.mem_toFinset] at hx ⊢
        exact hsub x hx
    _ ≤ (fiberOf b).length := List.toFinset_card_le _
    _ ≤ 2 := fiberOf_length b

def getCount (counts : List (String × Nat)) (b : String) : Nat :=
  (dlookup b counts).getD 0

/-- The payload keys `to_json` generates for a key list, threading the
per-base counters. -/
def genKeys (counts : List (String × Nat)) : List PyType → List String
  | [] => []
  | t :: rest =>
      (pyTypeName t ++ "_" ++ toString (getCount counts (pyTypeName t))) ::
        genKeys (dictInsert counts (pyTypeName t)
          (getCount counts (pyTypeName t) + 1)) rest

theorem genKeys_length (counts : List (String × Nat)) (ts : List PyType) :
    (genKeys counts ts).length = ts.length := by
  induction ts generalizing counts with
  | nil => rfl
  | cons t rest ih => simp [genKeys, ih]

theorem getCount_dictInsert (counts : List (String × Nat)) (b b2 : String)
    (n : Nat) :
    getCount (dictInsert counts b n) b2 =
      if b2 = b then n else getCount counts b2 := by
  rw [getCount, dlookup_dictInsert]
  by_cases h : b2 = b <;> simp [h, getCount]

theorem count_map_cons_self (t : PyType) (rest : List PyType) :
    ((t :: rest).map pyTypeName).count (pyTypeName t) =
      (rest.map pyTypeName).count (pyTypeName t) + 1 := by
  simp [List.count_cons]

theorem count_map_cons_le (t : PyType) (rest : List PyType) (b : String) :
    (rest.map pyTypeName).count b ≤ ((t :: rest).map pyTypeName).count b := by
  simp [List.count_cons]

theorem genKeys_mem (ts : List PyType) :
    ∀ (counts : List (String × Nat)) (k : String), k ∈ genKeys counts ts →
      ∃ b i, k = b ++ "_" ++ toString i ∧ getCount counts b ≤ i ∧
        i < getCount counts b + (ts.map pyTypeName).count b := by
  induction ts with
  | nil =>
    intro counts k hk
    simp [genKeys] at hk
  | cons t rest ih =>
    intro counts k hk
    rw [genKeys, List.mem_cons] at hk
    rcases hk with hk | hk
    · refine ⟨pyTypeName t, getCount counts (pyTypeName t), hk, le_refl _, ?_⟩
      rw [count_map_cons_self]
      omega
    · obtain ⟨b, i, hkey, hge, hlt⟩ := ih _ k hk
      rw [getCount_dictInsert] at hge hlt
      by_cases hb : b = pyTypeName t
      · subst hb
        rw [if_pos rfl] at hge hlt
        refine ⟨pyTypeName t, i, hkey, by omega, ?_⟩
        rw [count_map_cons_self]
        omega
      · rw [if_neg hb] at hge hlt
        refine ⟨b, i, hkey, hge, ?_⟩
        have := count_map_cons_le t rest b
        omega

theorem genKeys_nodup (ts : List PyType) :
    ∀ counts : List (String × Nat),
      (∀ b, getCount counts b + (ts.map pyTypeName).count b ≤ 2) →
      (genKeys counts ts).Nodup := by
  induction ts with
  | nil =>
    intro counts h
    simp [genKeys]
  | cons t rest ih =>
    intro counts hb
    rw [genKeys, List.nodup_cons]
    have hc0le : getCount counts (pyTypeName t) ≤ 1 := by
      have h1 := hb (pyTypeName t)
      have h2 := count_map_cons_self t rest
      omega
    constructor
    · intro hmem
      obtain ⟨b, i, hkey, hge, hlt⟩ := genKeys_mem rest _ _ hmem
      rw [getCount_dictInsert] at hge hlt
      have hile : i ≤ 1 := by
        by_cases hbb : b = pyTypeName t
        · subst hbb
          rw [if_pos rfl] at hlt
          have h1 := hb (pyTypeName t)
          have h2 := count_map_cons_self t rest
          omega
        · rw [if_neg hbb] at hlt
          have h1 := hb b
          have h2 := count_map_cons_le t rest b
          omega
      obtain ⟨hbe, hie⟩ := encodeKey_inj_small hc0le hile hkey
      rw [← hbe] at hge
      rw [if_pos rfl] at hge
      omega
    · apply ih
      intro b
      rw [getCount_dictInsert]
      by_cases hbb : b = pyTypeName t
      · subst hbb
        rw [if_pos rfl]
        have h1 := hb (pyTypeName t)
        have h2 := count_map_cons_self t rest
        omega
      · rw [if_neg hbb]
        have h1 := hb b
        have h2 := count_map_cons_le t rest b
        omega

def BuiltinScalar (t : PyType) : Prop :=
  t = .int ∨ t = .str ∨ t = .float ∨ t = .bool

/-- An entry round-trips when its key type is a natively representable
built-in scalar holding a well-typed payload whose name is not shadowed by
a mint, or a minted identity with a registered consistent
serializer/deserializer pair. -/
def EntryOK (m : NdjsonModel) (t : PyType) (v : PyVal) : Prop :=
  (BuiltinScalar t ∧ typeOf v = t ∧ pyTypeName t ∉ m.mintNames) ∨
  (∃ n f g, t = .minted n ∧ n ∈ m.mintNames ∧
    dlookup n m.ndjsonSer = some f ∧ dlookup n m.ndjsonDeser = some g ∧
    pyEq (g (f v)) v = true)

/-- The serialized payload of an entry on the success path. -/
def svOf (m : NdjsonModel) (p : PyType × PyVal) : JVal :=
  match serializeValue m p.2 p.1 with
  | .ok j => j
  | .error _ => .jNull

/-- The reconstructed payload of an entry on the success path. -/
def rtOf (m : NdjsonModel) (p : PyType × PyVal) : PyVal :=
  match deserializeValue m (svOf m p) p.1 with
  | .ok w => w
  | .error _ => .vStr ""

theorem entry_roundtrip {m : NdjsonModel} (hrs : m.regSer = [])
    (hrd : m.regDeser = []) (hsg : m.safeGlobals = []) {t : PyType}
    {v : PyVal} (h : EntryOK m t v) :
    serializeValue m v t = .ok (svOf m (t, v)) ∧
    deserializeTypeRepr m (serializeTypeRepr t) = .ok t ∧
    deserializeValue m (svOf m (t, v)) t = .ok (rtOf m (t, v)) ∧
    pyEq (rtOf m (t, v)) v = true := by
  rcases h with ⟨hb, htv, hns⟩ | ⟨n, f, g, ht, hn, hf, hg, hrt⟩
  · have hser : serializeValue m v t = .ok (pyToJ v) := by
      rcases hb with rfl | rfl | rfl | rfl <;>
        simp [serializeValue, serializeValueRegistry, hrs, dlookup]
    have hsv : svOf m (t, v) = pyToJ v := by
      rw [svOf]
      simp [hser]
    have hdt : deserializeTypeRepr m (serializeTypeRepr t) = .ok t := by
      rcases hb with rfl | rfl | rfl | rfl <;>
        · simp [pyTypeName] at hns
          simp [serializeTypeRepr, deserializeTypeRepr, pyTypeName, hns,
            hsg, dlookup]
    have hdes : deserializeValue m (pyToJ v) t = .ok v := by
      rcases hb with rfl | rfl | rfl | rfl <;>
        cases v <;> simp [typeOf] at htv <;>
          simp [deserializeValue, hrd, dlookup, pyToJ, pyConstruct, jTruthy,
            pyTypeName]
    have hrtv : rtOf m (t, v) = v := by
      rw [rtOf]
      simp [hsv, hdes]
    rw [hsv, hrtv]
    exact ⟨hser, hdt, by rw [hdes], pyEq_refl v⟩
  · subst ht
    have hser : serializeValue m v (.minted n) = .ok (f v) := by
      simp [serializeValue, hf]
    have hsv : svOf m (.minted n, v) = f v := by
      rw [svOf]
      simp [hser]
    have hdes : deserializeValue m (f v) (.minted n) = .ok (g (f v)) := by
      simp [deserializeValue, hg]
    have hrtv : rtOf m (.minted n, v) = g (f v) := by
      rw [rtOf]
      simp [hsv, hdes]
    refine ⟨by rw [hsv]; exact hser, ?_, ?_, ?_⟩
    · simp [serializeTypeRepr, deserializeTypeRepr, hn]
    · rw [hsv, hrtv]
      exact hdes
    · rw [hrtv]
      exact hrt

/-- The serialization loop succeeds on round-trippable entries and
produces exactly the metadata list and payload map of the generated
keys. -/
theorem toJsonGo_ok {m : NdjsonModel} (hrs : m.regSer = [])
    (hrd : m.regDeser = []) (hsg : m.safeGlobals = []) :
    ∀ (v : ConjData) (counts : List (String × Nat))
      (meta : List (String × String)) (payload : List (String × JVal)),
      (∀ p ∈ v, EntryOK m p.1 p.2) →
      toJsonGo m counts meta payload v =
        .ok ⟨meta ++ List.zipWith (fun p k => (serializeTypeRepr p.1, k)) v
            (genKeys counts (keysOf v)),
          dictInsertAll payload (List.zipWith (fun p k => (k, svOf m p)) v
            (genKeys counts (keysOf v)))⟩ := by
  intro v
  induction v with
  | nil =>
    intro counts meta payload hok
    simp [toJsonGo, keysOf, genKeys, dictInsertAll]
  | cons p rest ih =>
    intro counts meta payload hok
    obtain ⟨t, x⟩ := p
    have hk : keysOf ((t, x) :: rest) = t :: keysOf rest := rfl
    have hentry : EntryOK m t x := hok (t, x) (List.mem_cons_self _ _)
    have hser := (entry_roundtrip hrs hrd hsg hentry).1
    have hstep : toJsonGo m counts meta payload ((t, x) :: rest) =
        toJsonGo m (dictInsert counts (pyTypeName t)
            (getCount counts (pyTypeName t) + 1))
          (meta ++ [(serializeTypeRepr t,
            pyTypeName t ++ "_" ++ toString (getCount counts (pyTypeName t)))])
          (dictInsert payload
            (pyTypeName t ++ "_" ++ toString (getCount counts (pyTypeName t)))
            (svOf m (t, x))) rest := by
      rw [toJsonGo, hser]
      rfl
    rw [hstep, ih _ _ _ (fun q hq => hok q (List.mem_cons_of_mem _ hq))]
    rw [hk, genKeys]
    simp [getCount, List.append_assoc, dictInsertAll]

theorem zipWith_eq_map_zip {A B C : Type} (f : A → B → C) :
    ∀ (l1 : List A) (l2 : List B),
      List.zipWith f l1 l2 = (List.zip l1 l2).map (fun p => f p.1 p.2)
  | [], _ => by simp
  | _ :: _, [] => by simp
  | a :: l1, b :: l2 => by
    simp [List.zip_cons_cons, zipWith_eq_map_zip f l1 l2]

theorem keysOf_zipWith_snd {A : Type} (g : A → JVal) :
    ∀ (v : List A) (ks : List String), v.length = ks.length →
      keysOf (List.zipWith (fun p k => (k, g p)) v ks) = ks
  | [], [], _ => rfl
  | [], _ :: _, h => by simp at h
  | _ :: _, [], h => by simp at h
  | a :: v, k :: ks, h => by
    have h2 : v.length = ks.length := by simpa using h
    simp [keysOf] at *
    exact keysOf_zipWith_snd g v ks h2

theorem fromJsonGo_ok {m : NdjsonModel} (hrs : m.regSer = [])
    (hrd : m.regDeser = []) (hsg : m.safeGlobals = []) :
    ∀ (vs : ConjData) (ks : List String) (payload : List (String × JVal))
      (acc : ConjData),
      vs.length = ks.length →
      (∀ p ∈ vs, EntryOK m p.1 p.2) →
      (∀ pk ∈ List.zip vs ks, dlookup pk.2 payload = some (svOf m pk.1)) →
      NodupKeys vs →
      (∀ p ∈ vs, p.1 ∉ keysOf acc) →
      fromJsonGo m payload acc
        (List.zipWith (fun p k => (serializeTypeRepr p.1, k)) vs ks) =
        .ok (acc ++ vs.map (fun p => (p.1, rtOf m p))) := by
  intro vs
  induction vs with
  | nil =>
    intro ks payload acc hlen hok hpl hnd hacc
    simp [fromJsonGo]
  | cons p rest ih =>
    intro ks payload acc hlen hok hpl hnd hacc
    obtain ⟨t, x⟩ := p
    cases ks with
    | nil => simp at hlen
    | cons k kr =>
      have hE : EntryOK m t x := hok _ (List.mem_cons_self _ _)
      obtain ⟨_, hdt, hdes, hpe⟩ := entry_roundtrip hrs hrd hsg hE
      have hlk : dlookup k payload = some (svOf m (t, x)) :=
        hpl ((t, x), k) (by rw [List.zip_cons_cons]; exact List.mem_cons_self _ _)
      obtain ⟨htk, hndr⟩ := nodupKeys_cons hnd
      have hstep : fromJsonGo m payload acc
          (List.zipWith (fun p k => (serializeTypeRepr p.1, k))
            ((t, x) :: rest) (k :: kr)) =
          fromJsonGo m payload (dictInsert acc t (rtOf m (t, x)))
            (List.zipWith (fun p k => (serializeTypeRepr p.1, k)) rest kr) := by
        rw [List.zipWith_cons_cons, fromJsonGo, hlk]
        simp only [hdt, hdes]
      rw [hstep]
      have haccstep : dictInsert acc t (rtOf m (t, x)) =
          acc ++ [(t, rtOf m (t, x))] :=
        dictInsert_eq_append _ _ _ (hacc (t, x) (List.mem_cons_self _ _))
      rw [ih kr payload _ (by simpa using hlen)
        (fun q hq => hok q (List.mem_cons_of_mem _ hq))
        (fun pk hpk => hpl pk (by
          rw [List.zip_cons_cons]
          exact List.mem_cons_of_mem _ hpk))
        hndr
        ?_]
      · rw [haccstep, List.append_assoc]
        rfl
      · intro q hq
        rw [haccstep, keysOf_append]
        intro hmem
        rcases List.mem_append.mp hmem with hmem | hmem
        · exact hacc q (List.mem_cons_of_mem _ hq) hmem
        · simp [keysOf] at hmem
          apply htk
          rw [← hmem]
          show q.1 ∈ List.map Prod.fst rest
          exact List.mem_map_of_mem Prod.fst hq

theorem keysOf_map_rt (m : NdjsonModel) (vs : ConjData) :
    keysOf (vs.map (fun p => (p.1, rtOf m p))) = keysOf vs := by
  induction vs with
  | nil => rfl
  | cons p rest ih =>
    show p.1 :: keysOf (rest.map (fun p => (p.1, rtOf m p))) =
      p.1 :: keysOf rest
    rw [ih]

theorem conjEq_map_rt (m : NdjsonModel) (vs : ConjData) (hnd : NodupKeys vs)
    (h : ∀ p ∈ vs, pyEq (rtOf m p) p.2 = true) :
    conjEq (vs.map (fun p => (p.1, rtOf m p))) vs = true := by
  have hkeys := keysOf_map_rt m vs
  have hndm : NodupKeys (vs.map (fun p => (p.1, rtOf m p))) := by
    unfold NodupKeys
    rw [hkeys]
    exact hnd
  apply conjEq_intro
  · rw [keyFinset, keyFinset, hkeys]
  · intro t va vb hva hvb
    have hmem := mem_of_dlookup_eq_some hvb
    have hmap : dlookup t (vs.map (fun p => (p.1, rtOf m p))) =
        some (rtOf m (t, vb)) :=
      dlookup_eq_some_of_mem hndm (List.mem_map_of_mem _ hmem)
    rw [hva] at hmap
    obtain rfl := Option.some.inj hmap
    exact h (t, vb) hmem

/-- C2 counterexample: the zero-component empty Value encodes to a record
with empty type metadata, and decoding that record fails with
"Cannot create empty Conjunction" instead of reproducing the empty
Value. -/
theorem c2_empty_value_roundtrip_counterexample :
    toJson emptyModel [] = .ok ⟨[], []⟩ ∧
    fromJson emptyModel ⟨[], []⟩ =
      .error "Cannot create empty Conjunction" :=
  ⟨rfl, rfl⟩

/-- C2 (amended): the round trip holds for every Value with at least one
component whose component types are natively representable built-in
scalars holding well-typed payloads (their names not shadowed by a mint)
or minted identities with registered consistent serializer/deserializer
pairs, against a TypeRegistry with no custom entries; the zero-component
empty Value is excluded: decoding its encoding fails. -/
theorem c2_roundtrip_amended :
    ∀ (m : NdjsonModel) (v : ConjData),
      v ≠ [] → NodupKeys v → m.regSer = [] → m.regDeser = [] →
      m.safeGlobals = [] → (∀ p ∈ v, EntryOK m p.1 p.2) →
      ∃ w d, toJson m v = .ok w ∧ fromJson m w = .ok d ∧
        conjEq d v = true := by
  intro m v hne hnd hrs hrd hsg hok
  have hlen : v.length = (genKeys [] (keysOf v)).length := by
    rw [genKeys_length]
    simp [keysOf]
  have htj : toJson m v =
      .ok ⟨List.zipWith (fun p k => (serializeTypeRepr p.1, k)) v
          (genKeys [] (keysOf v)),
        dictInsertAll [] (List.zipWith (fun p k => (k, svOf m p)) v
          (genKeys [] (keysOf v)))⟩ := by
    have := toJsonGo_ok hrs hrd hsg v [] [] [] hok
    simpa [toJson] using this
  have hksnd : (genKeys [] (keysOf v)).Nodup := by
    apply genKeys_nodup
    intro b
    have h1 : getCount [] b = 0 := rfl
    have h2 := count_pyTypeName_le_two (keysOf v) hnd b
    omega
  have hpairs_keys : keysOf (List.zipWith (fun p k => (k, svOf m p)) v
      (genKeys [] (keysOf v))) = genKeys [] (keysOf v) :=
    keysOf_zipWith_snd (svOf m) v _ hlen
  have hpairs_nd : NodupKeys (List.zipWith (fun p k => (k, svOf m p)) v
      (genKeys [] (keysOf v))) := by
    unfold NodupKeys
    rw [hpairs_keys]
    exact hksnd
  have hmeta_ne : List.zipWith (fun p k => (serializeTypeRepr p.1, k)) v
      (genKeys [] (keysOf v)) ≠ [] := by
    cases v with
    | nil => exact absurd rfl hne
    | cons p rest =>
      have : keysOf (p :: rest) = p.1 :: keysOf rest := rfl
      rw [this, genKeys]
      simp
  have hfj : fromJson m ⟨List.zipWith (fun p k => (serializeTypeRepr p.1, k))
      v (genKeys [] (keysOf v)),
      dictInsertAll [] (List.zipWith (fun p k => (k, svOf m p)) v
        (genKeys [] (keysOf v)))⟩ =
      .ok (v.map (fun p => (p.1, rtOf m p))) := by
    rw [fromJson, if_neg hmeta_ne]
    have := fromJsonGo_ok hrs hrd hsg v (genKeys [] (keysOf v))
      (dictInsertAll [] (List.zipWith (fun p k => (k, svOf m p)) v
        (genKeys [] (keysOf v)))) [] hlen hok ?_ hnd ?_
    · simpa using this
    · intro pk hpk
      have hmem : (pk.2, svOf m pk.1) ∈
          List.zipWith (fun p k => (k, svOf m p)) v (genKeys [] (keysOf v)) := by
        rw [zipWith_eq_map_zip]
        exact List.mem_map_of_mem _ hpk
      have hsome := dlookup_eq_some_of_mem hpairs_nd hmem
      rw [dlookup_dictInsertAll _ _ _ hpairs_nd, hsome]
    · intro q hq
      simp [keysOf]
  refine ⟨_, _, htj, hfj, ?_⟩
  apply conjEq_map_rt m v hnd
  intro p hp
  have := (entry_roundtrip hrs hrd hsg (hok p hp)).2.2.2
  simpa using this

def exSer : PyVal → JVal := fun v =>
  match v with
  | .vStr s => .jStr ("wrapped:" ++ s)
  | w => pyToJ w

def exDeser : JVal → PyVal := fun j =>
  match j with
  | .jStr s => .vStr (s.drop 8)
  | _ => .vStr ""

def exModel : NdjsonModel :=
  { mintNames := ["P"], ndjsonSer := [("P", exSer)],
    ndjsonDeser := [("P", exDeser)], regSer := [], regDeser := [],
    safeGlobals := [] }

def exV : ConjData :=
  [(PyType.int, PyVal.vInt 42), (PyType.minted "P", PyVal.vStr "pt")]

/-- Witness for C2 (amended): a two-component value with a built-in int
entry and a minted entry with a registered consistent pair round-trips. -/
theorem c2_roundtrip_amended_witness :
    ∃ w d, toJson exModel exV = .ok w ∧ fromJson exModel w = .ok d ∧
      conjEq d exV = true := by
  apply c2_roundtrip_amended exModel exV
  · intro h
    simp [exV] at h
  · decide
  · rfl
  · rfl
  · rfl
  · intro p hp
    rcases List.mem_cons.mp hp with h1 | h2
    · rw [h1]
      exact Or.inl ⟨Or.inl rfl, rfl, by decide⟩
    · have h3 : p = (PyType.minted "P", PyVal.vStr "pt") := by simpa using h2
      rw [h3]
      exact Or.inr ⟨"P", exSer, exDeser, rfl, by decide, rfl, rfl, by decide⟩
